import Mathlib

/-!
Verification development for the Huffman coding engine in `huffman.py`
(repository `nstu_crypto_lab_2`).

Shallow embedding conventions:
* A `HuffmanNode` as produced by `build_huffman_tree` is either a leaf
  (`symbol` set, no children) or an internal node (`symbol = None`, both
  children set); we embed exactly these two shapes as an inductive type.
* Python `float` probabilities are modelled by `ℚ`.
* Python strings are modelled by `List Char`; alphabet symbols are single
  characters (`encode_string` iterates over the characters of its input).
* Python dicts (`codes`) are association lists with unique keys; assignment
  `codes[k] = v` updates the first entry with key `k` in place, else appends
  (the insertion-order semantics of Python dicts).
* `raise ValueError(...)` / `KeyError` become `Except` with one constructor
  per distinct failure site, mirroring the distinct messages of the source.
* `list.sort(key=lambda x: x.prob)` is Python's stable sort keyed by `prob`;
  any two stable sorts with the same key agree, so it is embedded as a
  stable insertion sort keyed by `prob`.
* The `while len(nodes) > 1` loop removes one node per iteration, so running
  a fuelled loop with `fuel = len(nodes)` is an exact model.
-/

namespace Huffman

open scoped List

/-- Tree node as built by `build_huffman_tree`: a leaf holds a symbol and its
probability, an internal node holds the summed probability and two children. -/
inductive HuffmanNode where
  | leaf (symbol : Char) (prob : ℚ)
  | internal (prob : ℚ) (left right : HuffmanNode)
  deriving DecidableEq

/-- `node.prob` attribute. -/
def HuffmanNode.prob : HuffmanNode → ℚ
  | .leaf _ p => p
  | .internal p _ _ => p

/-- Leaf symbols of a tree, in left-to-right order. -/
def HuffmanNode.leafList : HuffmanNode → List Char
  | .leaf s _ => [s]
  | .internal _ l r => l.leafList ++ r.leafList

/-- Failure of `build_huffman_tree` (`ValueError` on count mismatch). -/
inductive BuildError where
  | invalidInput
  deriving DecidableEq

/-- Failure of `generate_huffman_codes` (`ValueError` on empty tree). -/
inductive GenError where
  | emptyTree
  deriving DecidableEq

/-- Failure of `encode_string` (`ValueError` naming the unknown symbol). -/
inductive EncodeError where
  | unknownSymbol (symbol : Char)
  deriving DecidableEq

/-- Failures of `decode_string`, one per distinct `raise` site. -/
inductive DecodeError where
  | invalidBit (bit : Char)
  | malformedTree
  | incompleteCode
  deriving DecidableEq

/-- Failures of `calculate_average_length`: the guarded `ValueError` on a
count mismatch, and the unguarded `KeyError` from `codes[symbol]`. -/
inductive AvgError where
  | invalidInput
  | keyError (symbol : Char)
  deriving DecidableEq

/-- Insert `a` into a list already sorted by `prob`, before the first element
of no smaller probability (so after every strictly smaller element and after
no equal one: a stable insertion). -/
def probInsert (a : HuffmanNode) : List HuffmanNode → List HuffmanNode
  | [] => [a]
  | b :: l => if a.prob ≤ b.prob then a :: b :: l else b :: probInsert a l

/-- Stable sort by `prob`: the model of `nodes.sort(key=lambda x: x.prob)`
(Python's sort is stable, and all stable sorts with one key coincide). -/
def sortNodes : List HuffmanNode → List HuffmanNode
  | [] => []
  | a :: l => probInsert a (sortNodes l)

/-- Pop the two front (smallest, after sorting) nodes and append their
merged parent at the end; the body of one `while` iteration after the sort. -/
def mergeFront : List HuffmanNode → List HuffmanNode
  | l :: r :: rest => rest ++ [.internal (l.prob + r.prob) l r]
  | other => other

/-- Fuelled run of the `while len(nodes) > 1` loop of `build_huffman_tree`:
while at least two nodes remain, sort by probability and merge the two
front nodes. The loop runs `len - 1` times, so any `fuel ≥ len - 1` (we
pass `len`) is exact. -/
def buildGo : ℕ → List HuffmanNode → List HuffmanNode
  | 0, nodes => nodes
  | fuel + 1, nodes =>
    if 2 ≤ nodes.length then buildGo fuel (mergeFront (sortNodes nodes)) else nodes

/-- `build_huffman_tree(symbols, probs)`: `ValueError` when the counts
differ, else one leaf per pair, the merge loop, and `nodes[0] if nodes else
None`. -/
def build_huffman_tree (symbols : List Char) (probs : List ℚ) :
    Except BuildError (Option HuffmanNode) :=
  if symbols.length = probs.length then
    .ok (buildGo symbols.length (List.zipWith HuffmanNode.leaf symbols probs)).head?
  else
    .error .invalidInput

/-- Dictionary lookup `d[k]` on an association list (first matching key; the
lists built here always have unique keys). -/
def lookup? (k : Char) : List (Char × List Char) → Option (List Char)
  | [] => none
  | e :: rest => if e.1 = k then some e.2 else lookup? k rest

/-- Dictionary assignment `d[k] = v`: update the first entry with key `k` in
place, else append — Python dict semantics. -/
def dictInsert : List (Char × List Char) → Char → List Char → List (Char × List Char)
  | [], k, v => [(k, v)]
  | e :: rest, k, v => if e.1 = k then (k, v) :: rest else e :: dictInsert rest k v

/-- The recursive `traverse` helper of `generate_huffman_codes`: at a leaf
record the accumulated path, at an internal node descend left with `'0'`
appended and right with `'1'` appended. -/
def traverse : HuffmanNode → List Char → List (Char × List Char) → List (Char × List Char)
  | .leaf s _, current_code, codes => dictInsert codes s current_code
  | .internal _ l r, current_code, codes =>
    traverse r (current_code ++ ['1']) (traverse l (current_code ++ ['0']) codes)

/-- The code table produced for a (non-absent) tree root. -/
def genCodes (root : HuffmanNode) : List (Char × List Char) :=
  traverse root [] []

/-- `generate_huffman_codes(root)`: `ValueError` when the tree is absent,
else the traversal's dictionary. -/
def generate_huffman_codes : Option HuffmanNode → Except GenError (List (Char × List Char))
  | none => .error .emptyTree
  | some root => .ok (genCodes root)

/-- The summation loop of `calculate_average_length`: for each
`(symbol, prob)` pair in order, add `prob * len(codes[symbol])`; a missing
key raises `KeyError(symbol)`. -/
def avgLoop (codes : List (Char × List Char)) : List (Char × ℚ) → ℚ → Except AvgError ℚ
  | [], acc => .ok acc
  | (s, p) :: rest, acc =>
    match lookup? s codes with
    | none => .error (.keyError s)
    | some w => avgLoop codes rest (acc + p * (w.length : ℚ))

/-- `calculate_average_length(codes, symbols, probs)`. -/
def calculate_average_length (codes : List (Char × List Char))
    (symbols : List Char) (probs : List ℚ) : Except AvgError ℚ :=
  if symbols.length = probs.length then
    avgLoop codes (symbols.zip probs) 0
  else
    .error .invalidInput

/-- One Kraft summand `2 ** (-len(code))`. -/
def kraftTerm (e : Char × List Char) : ℚ :=
  (2 : ℚ) ^ (-(e.2.length : ℤ))

/-- `check_kraft_inequality(codes)`: fold the summands over the table's
entries and compare the total against `1.0` — the comparison is exact, the
source applies no epsilon. -/
def check_kraft_inequality (codes : List (Char × List Char)) : Bool × ℚ :=
  let kraft_sum := codes.foldl (fun acc e => acc + kraftTerm e) 0
  (decide (kraft_sum ≤ 1), kraft_sum)

/-- The accumulation loop of `encode_string`: append each character's
codeword, failing at the first character absent from the table. -/
def encLoop (codes : List (Char × List Char)) : List Char → List Char → Except EncodeError (List Char)
  | [], encoded => .ok encoded
  | c :: rest, encoded =>
    match lookup? c codes with
    | some w => encLoop codes rest (encoded ++ w)
    | none => .error (.unknownSymbol c)

/-- `encode_string(input_string, codes)`. -/
def encode_string (input_string : List Char) (codes : List (Char × List Char)) :
    Except EncodeError (List Char) :=
  encLoop codes input_string []

/-- The bit loop of `decode_string`: on `'0'`/`'1'` move to the left/right
child (moving off a leaf is the `current_node is None` malformed-tree error),
emit a symbol and reset to the root on reaching a leaf, reject any other
character, and at the end require the current node to be the root. -/
def decodeLoop (root : HuffmanNode) :
    List Char → HuffmanNode → List Char → Except DecodeError (List Char)
  | [], current, decoded => if current = root then .ok decoded else .error .incompleteCode
  | bit :: rest, current, decoded =>
    if bit = '0' then
      match current with
      | .leaf _ _ => .error .malformedTree
      | .internal _ left _ =>
        match left with
        | .leaf s _ => decodeLoop root rest root (decoded ++ [s])
        | .internal p a b => decodeLoop root rest (.internal p a b) decoded
    else if bit = '1' then
      match current with
      | .leaf _ _ => .error .malformedTree
      | .internal _ _ right =>
        match right with
        | .leaf s _ => decodeLoop root rest root (decoded ++ [s])
        | .internal p a b => decodeLoop root rest (.internal p a b) decoded
    else
      .error (.invalidBit bit)

/-- `decode_string(encoded_string, root)`. -/
def decode_string (encoded_string : List Char) (root : HuffmanNode) :
    Except DecodeError (List Char) :=
  decodeLoop root encoded_string root []

/-- The decoder's walk without its terminal boundary check: `some (fin, out)`
is the final current node and the emitted symbols when the walk stays on the
tree, `none` when it falls off (or meets an invalid bit). Used to state what
"the walk never falls off and ends at `fin`" means. -/
def walkAux (root : HuffmanNode) :
    List Char → HuffmanNode → List Char → Option (HuffmanNode × List Char)
  | [], current, out => some (current, out)
  | bit :: rest, current, out =>
    if bit = '0' then
      match current with
      | .leaf _ _ => none
      | .internal _ left _ =>
        match left with
        | .leaf s _ => walkAux root rest root (out ++ [s])
        | .internal p a b => walkAux root rest (.internal p a b) out
    else if bit = '1' then
      match current with
      | .leaf _ _ => none
      | .internal _ _ right =>
        match right with
        | .leaf s _ => walkAux root rest root (out ++ [s])
        | .internal p a b => walkAux root rest (.internal p a b) out
    else
      none

/-- The full decoder walk from the root with no symbols emitted yet. -/
def walkAll (root : HuffmanNode) (bits : List Char) : Option (HuffmanNode × List Char) :=
  walkAux root bits root []

/-- Subtree reached from `t` by a `'0'`/`'1'` path (`none` when the path
leaves the tree or holds another character). -/
def subtreeAt : HuffmanNode → List Char → Option HuffmanNode
  | t, [] => some t
  | .leaf _ _, _ :: _ => none
  | .internal _ l r, b :: bs =>
    if b = '0' then subtreeAt l bs else if b = '1' then subtreeAt r bs else none

/-- The symbol at the end of a root-to-leaf path, when the path lands exactly
on a leaf. -/
def leafPath (t : HuffmanNode) (p : List Char) : Option Char :=
  match subtreeAt t p with
  | some (.leaf s _) => some s
  | _ => none

/-- Plain depth-first list of `(symbol, path)` pairs of a tree: what the
traversal of `generate_huffman_codes` emits, before dictionary insertion. -/
def pathList : HuffmanNode → List Char → List (Char × List Char)
  | .leaf s _, current => [(s, current)]
  | .internal _ l r, current =>
    pathList l (current ++ ['0']) ++ pathList r (current ++ ['1'])

/-- Leaf symbols of a working list of trees. -/
def forestLeaves (nodes : List HuffmanNode) : List Char :=
  (nodes.map HuffmanNode.leafList).flatten

/-- A working-collection node instrumented with its insertion tag: initial
leaves are tagged by their alphabet position, merged nodes by creation order.
Tags are bookkeeping only — the sort key is still `node.prob`. -/
structure TNode where
  tag : ℕ
  node : HuffmanNode
  deriving DecidableEq

/-- Stable insertion by `node.prob` on tagged nodes. -/
def probInsertT (a : TNode) : List TNode → List TNode
  | [] => [a]
  | b :: l => if a.node.prob ≤ b.node.prob then a :: b :: l else b :: probInsertT a l

/-- Stable sort by `node.prob` on tagged nodes. -/
def sortTNodes : List TNode → List TNode
  | [] => []
  | a :: l => probInsertT a (sortTNodes l)

/-- Tagged counterpart of `mergeFront`: the merged parent carries the fresh
tag `next`. -/
def mergeFrontT (next : ℕ) : List TNode → List TNode
  | l :: r :: rest =>
    rest ++ [⟨next, .internal (l.node.prob + r.node.prob) l.node r.node⟩]
  | other => other

/-- One merge step of the instrumented builder: sort, pop the two front
nodes, append the merged node tagged with the next fresh tag. -/
def stepT (next : ℕ) (items : List TNode) : ℕ × List TNode :=
  (next + 1, mergeFrontT next (sortTNodes items))

/-- Fuelled merge loop of the instrumented builder. -/
def goT : ℕ → ℕ → List TNode → List TNode
  | 0, _, items => items
  | fuel + 1, next, items =>
    if 2 ≤ items.length then goT fuel (stepT next items).1 (stepT next items).2 else items

/-- Initial tagged leaves: tag `i` for the `i`-th alphabet entry. -/
def initTags : ℕ → List HuffmanNode → List TNode
  | _, [] => []
  | i, t :: ts => ⟨i, t⟩ :: initTags (i + 1) ts

/-- The instrumented run of `build_huffman_tree`'s merge loop. -/
def build_tree_tagged (symbols : List Char) (probs : List ℚ) : List TNode :=
  goT symbols.length symbols.length (initTags 0 (List.zipWith HuffmanNode.leaf symbols probs))

/-- Tagged working lists in which any two nodes of equal probability appear
in tag (insertion) order. -/
def TagOrdered (items : List TNode) : Prop :=
  items.Pairwise fun x y => x.node.prob = y.node.prob → x.tag < y.tag

/-- All tags in the list are below the next fresh tag. -/
def tagsBelow (n : ℕ) (items : List TNode) : Prop :=
  ∀ x ∈ items, x.tag < n

instance : DecidablePred TagOrdered := fun items =>
  List.instDecidablePairwise items

/-! ### Sorting: length, permutation, sortedness -/

theorem length_probInsert (a : HuffmanNode) (l : List HuffmanNode) :
    (probInsert a l).length = l.length + 1 := by
  induction l with
  | nil => rfl
  | cons b t ih => by_cases h : a.prob ≤ b.prob <;> simp [probInsert, h, ih]

theorem length_sortNodes (l : List HuffmanNode) : (sortNodes l).length = l.length := by
  induction l with
  | nil => rfl
  | cons a t ih => simp [sortNodes, length_probInsert, ih]

theorem perm_probInsert (a : HuffmanNode) (l : List HuffmanNode) :
    probInsert a l ~ a :: l := by
  induction l with
  | nil => exact List.Perm.refl _
  | cons b t ih =>
    by_cases h : a.prob ≤ b.prob
    · simp [probInsert, h]
    · simp only [probInsert, if_neg h]
      exact (ih.cons b).trans (List.Perm.swap a b t)

theorem perm_sortNodes (l : List HuffmanNode) : sortNodes l ~ l := by
  induction l with
  | nil => exact List.Perm.refl _
  | cons a t ih => exact (perm_probInsert a (sortNodes t)).trans (ih.cons a)

/-! ### The merge loop preserves the leaf symbols and makes the root internal -/

theorem forestLeaves_perm {l₁ l₂ : List HuffmanNode} (h : l₁ ~ l₂) :
    forestLeaves l₁ ~ forestLeaves l₂ :=
  (h.map HuffmanNode.leafList).flatten

theorem forestLeaves_append (l₁ l₂ : List HuffmanNode) :
    forestLeaves (l₁ ++ l₂) = forestLeaves l₁ ++ forestLeaves l₂ := by
  simp [forestLeaves]

theorem forestLeaves_mergeFront (l : List HuffmanNode) :
    forestLeaves (mergeFront l) ~ forestLeaves l := by
  match l with
  | [] => exact List.Perm.refl _
  | [x] => exact List.Perm.refl _
  | a :: b :: rest =>
    show forestLeaves (rest ++ [.internal (a.prob + b.prob) a b]) ~ _
    rw [forestLeaves_append]
    simp only [forestLeaves, List.map_cons, List.flatten_cons, HuffmanNode.leafList]
    calc (List.map HuffmanNode.leafList rest).flatten ++ (a.leafList ++ b.leafList ++ [])
        ~ (a.leafList ++ b.leafList ++ []) ++ (List.map HuffmanNode.leafList rest).flatten :=
          List.perm_append_comm
      _ ~ a.leafList ++ (b.leafList ++ (List.map HuffmanNode.leafList rest).flatten) := by
          simp [List.append_assoc]

theorem forestLeaves_buildGo (fuel : ℕ) :
    ∀ l : List HuffmanNode, forestLeaves (buildGo fuel l) ~ forestLeaves l := by
  induction fuel with
  | zero => intro l; exact List.Perm.refl _
  | succ fuel ih =>
    intro l
    by_cases h : 2 ≤ l.length
    · simp only [buildGo, if_pos h]
      exact (ih _).trans ((forestLeaves_mergeFront _).trans (forestLeaves_perm (perm_sortNodes l)))
    · simp only [buildGo, if_neg h]
      exact List.Perm.refl _

theorem length_mergeFront_of_cons_cons {a b : HuffmanNode} {rest l : List HuffmanNode}
    (h : l = a :: b :: rest) : (mergeFront l).length = l.length - 1 := by
  subst h
  simp [mergeFront]

theorem exists_cons_cons_of_two_le {α : Type _} (L : List α) (h : 2 ≤ L.length) :
    ∃ a b t, L = a :: b :: t := by
  match L with
  | [] => simp at h
  | [x] => simp at h
  | a :: b :: t => exact ⟨a, b, t, rfl⟩

theorem buildGo_singleton (fuel : ℕ) (t : HuffmanNode) : buildGo fuel [t] = [t] := by
  cases fuel with
  | zero => rfl
  | succ fuel => simp [buildGo]

theorem buildGo_internal (fuel : ℕ) :
    ∀ l : List HuffmanNode, l.length ≤ fuel + 1 → 2 ≤ l.length →
      ∃ p a b, buildGo fuel l = [HuffmanNode.internal p a b] := by
  induction fuel with
  | zero => intro l hlen h2; omega
  | succ fuel ih =>
    intro l hlen h2
    obtain ⟨a, b, rest, hs⟩ := exists_cons_cons_of_two_le (sortNodes l)
      (by rw [length_sortNodes]; exact h2)
    have hmerge : mergeFront (sortNodes l) = rest ++ [.internal (a.prob + b.prob) a b] := by
      rw [hs]; rfl
    have hmlen : (mergeFront (sortNodes l)).length = l.length - 1 := by
      rw [length_mergeFront_of_cons_cons hs, length_sortNodes]
    simp only [buildGo, if_pos h2]
    by_cases hr : 2 ≤ (mergeFront (sortNodes l)).length
    · exact ih _ (by omega) hr
    · have h1 : (mergeFront (sortNodes l)).length = 1 := by omega
      rw [hmerge] at h1
      simp at h1
      rw [hmerge, h1]
      simp only [List.nil_append]
      exact ⟨a.prob + b.prob, a, b, buildGo_singleton fuel _⟩

theorem forestLeaves_zipWith (symbols : List Char) (probs : List ℚ)
    (h : symbols.length = probs.length) :
    forestLeaves (List.zipWith HuffmanNode.leaf symbols probs) = symbols := by
  induction symbols generalizing probs with
  | nil => simp [forestLeaves]
  | cons s st ih =>
    cases probs with
    | nil => simp at h
    | cons p pt =>
      simp only [List.zipWith_cons_cons, forestLeaves, List.map_cons, List.flatten_cons,
        HuffmanNode.leafList]
      have := ih pt (by simpa using h)
      simp only [forestLeaves] at this
      simp [this]

/-! ### Dictionary lemmas -/

theorem mem_dictInsert {d : List (Char × List Char)} {k : Char} {v : List Char} :
    ∀ e ∈ dictInsert d k v, e = (k, v) ∨ e ∈ d := by
  induction d with
  | nil =>
    intro e he
    simp [dictInsert] at he
    left
    exact he
  | cons x rest ih =>
    intro e he
    by_cases h : x.1 = k
    · simp only [dictInsert, if_pos h] at he
      rcases List.mem_cons.mp he with h' | h'
      · left; exact h'
      · right; exact List.mem_cons_of_mem _ h'
    · simp only [dictInsert, if_neg h] at he
      rcases List.mem_cons.mp he with h' | h'
      · right; exact h' ▸ List.mem_cons_self _ _
      · rcases ih e h' with h'' | h''
        · left; exact h''
        · right; exact List.mem_cons_of_mem _ h''

theorem lookup?_dictInsert (d : List (Char × List Char)) (k k' : Char) (v : List Char) :
    lookup? k' (dictInsert d k v) = if k' = k then some v else lookup? k' d := by
  induction d with
  | nil =>
    by_cases h : k' = k
    · simp [dictInsert, lookup?, h]
    · have h' : ¬ k = k' := fun hh => h (Eq.symm hh)
      simp [dictInsert, lookup?, h, h']
  | cons x rest ih =>
    by_cases hx : x.1 = k
    · by_cases h : k' = k
      · simp [dictInsert, lookup?, hx, h]
      · have h' : ¬ k = k' := fun hh => h (Eq.symm hh)
        have hx' : ¬ x.1 = k' := by rw [hx]; exact h'
        simp [dictInsert, lookup?, hx, h, h', hx']
    · by_cases hk' : x.1 = k'
      · have h : ¬ k' = k := fun hh => hx (hk'.trans hh)
        simp [dictInsert, lookup?, hx, hk', h]
      · simp [dictInsert, lookup?, hx, hk', ih]

theorem lookup?_eq_none (d : List (Char × List Char)) (k : Char) :
    lookup? k d = none ↔ ∀ e ∈ d, e.1 ≠ k := by
  induction d with
  | nil => simp [lookup?]
  | cons x rest ih =>
    by_cases h : x.1 = k <;> simp [lookup?, h, ih]

theorem dictInsert_of_none {d : List (Char × List Char)} {k : Char} (v : List Char)
    (h : lookup? k d = none) : dictInsert d k v = d ++ [(k, v)] := by
  induction d with
  | nil => rfl
  | cons x rest ih =>
    have hx : ¬ x.1 = k := ((lookup?_eq_none _ _).mp h) x (List.mem_cons_self _ _)
    simp only [lookup?, if_neg hx] at h
    simp [dictInsert, hx, ih h]

theorem lookup?_mem {d : List (Char × List Char)} {k : Char} {v : List Char}
    (h : lookup? k d = some v) : (k, v) ∈ d := by
  induction d with
  | nil => simp [lookup?] at h
  | cons x rest ih =>
    by_cases hx : x.1 = k
    · simp only [lookup?, if_pos hx] at h
      have : x = (k, v) := by
        cases x; simp_all
      exact this ▸ List.mem_cons_self _ _
    · simp only [lookup?, if_neg hx] at h
      exact List.mem_cons_of_mem _ (ih h)

theorem lookup?_append_left {d₁ d₂ : List (Char × List Char)} {k : Char} {v : List Char}
    (h : lookup? k d₁ = some v) : lookup? k (d₁ ++ d₂) = some v := by
  induction d₁ with
  | nil => simp [lookup?] at h
  | cons x rest ih =>
    by_cases hx : x.1 = k
    · simp only [lookup?, if_pos hx] at h ⊢; exact h
    · simp only [lookup?, if_neg hx] at h ⊢
      exact ih h

theorem lookup?_append_right {d₁ : List (Char × List Char)} {k : Char}
    (h : lookup? k d₁ = none) (d₂ : List (Char × List Char)) :
    lookup? k (d₁ ++ d₂) = lookup? k d₂ := by
  induction d₁ with
  | nil => rfl
  | cons x rest ih =>
    have hx : ¬ x.1 = k := ((lookup?_eq_none _ _).mp h) x (List.mem_cons_self _ _)
    simp only [lookup?, if_neg hx] at h ⊢
    exact ih h

/-! ### Paths, subtrees and leaf paths -/

theorem subtreeAt_nil (t : HuffmanNode) : subtreeAt t [] = some t := by
  cases t <;> rfl

theorem subtreeAt_leaf_cons (s : Char) (p : ℚ) (b : Char) (bs : List Char) :
    subtreeAt (.leaf s p) (b :: bs) = none := rfl

theorem subtreeAt_internal_cons (q : ℚ) (l r : HuffmanNode) (b : Char) (bs : List Char) :
    subtreeAt (.internal q l r) (b :: bs) =
      if b = '0' then subtreeAt l bs else if b = '1' then subtreeAt r bs else none := rfl

theorem leafPath_leaf_nil (s : Char) (p : ℚ) : leafPath (.leaf s p) [] = some s := rfl

theorem leafPath_leaf_cons (s : Char) (p : ℚ) (b : Char) (bs : List Char) :
    leafPath (.leaf s p) (b :: bs) = none := rfl

theorem leafPath_internal_nil (q : ℚ) (l r : HuffmanNode) :
    leafPath (.internal q l r) [] = none := rfl

theorem leafPath_internal_cons (q : ℚ) (l r : HuffmanNode) (b : Char) (bs : List Char) :
    leafPath (.internal q l r) (b :: bs) =
      if b = '0' then leafPath l bs else if b = '1' then leafPath r bs else none := by
  simp only [leafPath, subtreeAt_internal_cons]
  by_cases h0 : b = '0'
  · simp [h0]
  · by_cases h1 : b = '1' <;> simp [h0, h1]

theorem subtreeAt_append (t : HuffmanNode) (p q : List Char) :
    subtreeAt t (p ++ q) = (subtreeAt t p).bind (fun u => subtreeAt u q) := by
  induction p generalizing t with
  | nil => simp [subtreeAt_nil]
  | cons b bs ih =>
    cases t with
    | leaf s pr => simp [subtreeAt_leaf_cons]
    | internal pr l r =>
      simp only [List.cons_append, subtreeAt_internal_cons]
      by_cases h0 : b = '0'
      · simp [h0, ih]
      · by_cases h1 : b = '1' <;> simp [h0, h1, ih]

theorem subtreeAt_child_left {root : HuffmanNode} {cur : List Char} {q : ℚ}
    {l r : HuffmanNode} (h : subtreeAt root cur = some (.internal q l r)) :
    subtreeAt root (cur ++ ['0']) = some l := by
  rw [subtreeAt_append, h]
  simp [subtreeAt_internal_cons, subtreeAt_nil]

theorem subtreeAt_child_right {root : HuffmanNode} {cur : List Char} {q : ℚ}
    {l r : HuffmanNode} (h : subtreeAt root cur = some (.internal q l r)) :
    subtreeAt root (cur ++ ['1']) = some r := by
  rw [subtreeAt_append, h]
  simp [subtreeAt_internal_cons, subtreeAt_nil]

theorem bits_of_subtreeAt {t u : HuffmanNode} :
    ∀ {p : List Char}, subtreeAt t p = some u → ∀ ch ∈ p, ch = '0' ∨ ch = '1' := by
  intro p
  induction p generalizing t with
  | nil => intro _ ch hch; simp at hch
  | cons b bs ih =>
    intro h ch hch
    cases t with
    | leaf s pr => simp [subtreeAt_leaf_cons] at h
    | internal pr l r =>
      rw [subtreeAt_internal_cons] at h
      by_cases h0 : b = '0'
      · rcases List.mem_cons.mp hch with h' | h'
        · left; exact h' ▸ h0
        · rw [if_pos h0] at h
          exact ih h ch h'
      · by_cases h1 : b = '1'
        · rcases List.mem_cons.mp hch with h' | h'
          · right; exact h' ▸ h1
          · rw [if_neg h0, if_pos h1] at h
            exact ih h ch h'
        · rw [if_neg h0, if_neg h1] at h
          exact absurd h (by simp)

theorem leafPath_ne_nil {q : ℚ} {l r : HuffmanNode} {w : List Char} {c : Char}
    (h : leafPath (.internal q l r) w = some c) : w ≠ [] := by
  intro hw
  rw [hw, leafPath_internal_nil] at h
  exact absurd h (by simp)

theorem leafPath_isPrefix_eq {t : HuffmanNode} :
    ∀ {c₁ c₂ : List Char} {s₁ s₂ : Char}, leafPath t c₁ = some s₁ →
      leafPath t c₂ = some s₂ → c₁ <+: c₂ → c₁ = c₂ := by
  induction t with
  | leaf s p =>
    intro c₁ c₂ s₁ s₂ h₁ h₂ _
    cases c₁ with
    | nil =>
      cases c₂ with
      | nil => rfl
      | cons b bs => rw [leafPath_leaf_cons] at h₂; exact absurd h₂ (by simp)
    | cons b bs => rw [leafPath_leaf_cons] at h₁; exact absurd h₁ (by simp)
  | internal q l r ihl ihr =>
    intro c₁ c₂ s₁ s₂ h₁ h₂ hpre
    cases c₁ with
    | nil => rw [leafPath_internal_nil] at h₁; exact absurd h₁ (by simp)
    | cons b bs =>
      cases c₂ with
      | nil => exact absurd (List.prefix_nil.mp hpre) (by simp)
      | cons b₂ bs₂ =>
        obtain ⟨hb, hbs⟩ := List.cons_prefix_cons.mp hpre
        subst hb
        rw [leafPath_internal_cons] at h₁ h₂
        by_cases h0 : b = '0'
        · rw [if_pos h0] at h₁ h₂
          rw [ihl h₁ h₂ hbs]
        · by_cases h1 : b = '1'
          · rw [if_neg h0, if_pos h1] at h₁ h₂
            rw [ihr h₁ h₂ hbs]
          · rw [if_neg h0, if_neg h1] at h₁
            exact absurd h₁ (by simp)

/-! ### Traversal: every table entry is a root-to-leaf path -/

theorem traverse_leafPath {root : HuffmanNode} :
    ∀ (t : HuffmanNode) (cur : List Char) (codes : List (Char × List Char)),
      subtreeAt root cur = some t →
      (∀ e ∈ codes, leafPath root e.2 = some e.1) →
      ∀ e ∈ traverse t cur codes, leafPath root e.2 = some e.1 := by
  intro t
  induction t with
  | leaf s p =>
    intro cur codes hsub hcodes e he
    rcases mem_dictInsert e he with h' | h'
    · subst h'
      simp only [leafPath, hsub]
    · exact hcodes e h'
  | internal q l r ihl ihr =>
    intro cur codes hsub hcodes e he
    exact ihr (cur ++ ['1']) _ (subtreeAt_child_right hsub)
      (ihl (cur ++ ['0']) codes (subtreeAt_child_left hsub) hcodes) e he

theorem genCodes_leafPath {t : HuffmanNode} :
    ∀ e ∈ genCodes t, leafPath t e.2 = some e.1 :=
  traverse_leafPath t [] [] (subtreeAt_nil t) (by intro e he; simp at he)

theorem genCodes_lookup {t : HuffmanNode} {c : Char} {w : List Char}
    (h : lookup? c (genCodes t) = some w) : leafPath t w = some c :=
  genCodes_leafPath (c, w) (lookup?_mem h)

theorem traverse_lookup_mono (t : HuffmanNode) :
    ∀ (cur : List Char) (codes : List (Char × List Char)) (s : Char),
      (lookup? s codes).isSome → (lookup? s (traverse t cur codes)).isSome := by
  induction t with
  | leaf s' p =>
    intro cur codes s h
    show (lookup? s (dictInsert codes s' cur)).isSome
    rw [lookup?_dictInsert]
    by_cases hs : s = s'
    · simp [hs]
    · simp only [if_neg hs]
      exact h
  | internal q l r ihl ihr =>
    intro cur codes s h
    exact ihr _ _ s (ihl _ _ s h)

theorem traverse_lookup_isSome (t : HuffmanNode) :
    ∀ (cur : List Char) (codes : List (Char × List Char)) (s : Char),
      s ∈ t.leafList → (lookup? s (traverse t cur codes)).isSome := by
  induction t with
  | leaf s' p =>
    intro cur codes s hs
    have : s = s' := by simpa [HuffmanNode.leafList] using hs
    subst this
    show (lookup? s (dictInsert codes s cur)).isSome
    rw [lookup?_dictInsert]
    simp
  | internal q l r ihl ihr =>
    intro cur codes s hs
    rcases List.mem_append.mp (by simpa [HuffmanNode.leafList] using hs) with h' | h'
    · exact traverse_lookup_mono r _ _ s (ihl _ _ s h')
    · exact ihr _ _ s h'

theorem genCodes_lookup_isSome {t : HuffmanNode} {s : Char} (hs : s ∈ t.leafList) :
    (lookup? s (genCodes t)).isSome :=
  traverse_lookup_isSome t [] [] s hs

/-! ### Traversal with fresh leaves is a plain append of the path list -/

theorem pathList_map_fst (t : HuffmanNode) :
    ∀ cur : List Char, (pathList t cur).map Prod.fst = t.leafList := by
  induction t with
  | leaf s p => intro cur; rfl
  | internal q l r ihl ihr =>
    intro cur
    simp [pathList, HuffmanNode.leafList, ihl, ihr]

theorem lookup?_eq_none_of_not_mem_keys {d : List (Char × List Char)} {k : Char}
    (h : k ∉ d.map Prod.fst) : lookup? k d = none := by
  rw [lookup?_eq_none]
  intro e he hek
  exact h (hek ▸ List.mem_map_of_mem Prod.fst he)

theorem traverse_eq_append (t : HuffmanNode) :
    ∀ (cur : List Char) (codes : List (Char × List Char)),
      (∀ s ∈ t.leafList, lookup? s codes = none) →
      t.leafList.Nodup →
      traverse t cur codes = codes ++ pathList t cur := by
  induction t with
  | leaf s p =>
    intro cur codes hdisj _
    show dictInsert codes s cur = codes ++ [(s, cur)]
    exact dictInsert_of_none cur (hdisj s (by simp [HuffmanNode.leafList]))
  | internal q l r ihl ihr =>
    intro cur codes hdisj hnodup
    have hnl : l.leafList.Nodup := (List.nodup_append.mp (by simpa [HuffmanNode.leafList] using hnodup)).1
    have hnr : r.leafList.Nodup := (List.nodup_append.mp (by simpa [HuffmanNode.leafList] using hnodup)).2.1
    have hlr : ∀ s ∈ l.leafList, s ∉ r.leafList := by
      intro s hsl hsr
      exact (List.nodup_append.mp (by simpa [HuffmanNode.leafList] using hnodup)).2.2 hsl hsr
    have hl : traverse l (cur ++ ['0']) codes = codes ++ pathList l (cur ++ ['0']) :=
      ihl _ _ (fun s hs => hdisj s (by simp [HuffmanNode.leafList, hs])) hnl
    have hr : traverse r (cur ++ ['1']) (codes ++ pathList l (cur ++ ['0'])) =
        (codes ++ pathList l (cur ++ ['0'])) ++ pathList r (cur ++ ['1']) := by
      refine ihr _ _ ?_ hnr
      intro s hs
      have h₁ : lookup? s codes = none := hdisj s (by simp [HuffmanNode.leafList, hs])
      have h₂ : lookup? s (pathList l (cur ++ ['0'])) = none := by
        refine lookup?_eq_none_of_not_mem_keys ?_
        rw [pathList_map_fst]
        intro hsl
        exact hlr s hsl hs
      rw [lookup?_append_right h₁, h₂]
    show traverse r (cur ++ ['1']) (traverse l (cur ++ ['0']) codes) = _
    rw [hl, hr, pathList]
    simp [List.append_assoc]

theorem genCodes_eq_pathList {t : HuffmanNode} (h : t.leafList.Nodup) :
    genCodes t = pathList t [] := by
  show traverse t [] [] = _
  rw [traverse_eq_append t [] [] (fun s _ => rfl) h]
  rfl

/-! ### Encoder lemmas -/

theorem encLoop_ok (codes : List (Char × List Char)) :
    ∀ (s acc : List Char), (∀ c ∈ s, (lookup? c codes).isSome) →
      encLoop codes s acc = .ok (acc ++ (s.map fun c => (lookup? c codes).getD []).flatten) := by
  intro s
  induction s with
  | nil => intro acc _; simp [encLoop]
  | cons c rest ih =>
    intro acc hall
    obtain ⟨w, hw⟩ := Option.isSome_iff_exists.mp (hall c (List.mem_cons_self _ _))
    have hrest : ∀ x ∈ rest, (lookup? x codes).isSome :=
      fun x hx => hall x (List.mem_cons_of_mem _ hx)
    simp only [encLoop, hw]
    rw [ih (acc ++ w) hrest]
    simp [hw, List.append_assoc]

theorem encLoop_error (codes : List (Char × List Char)) {c : Char}
    (hc : lookup? c codes = none) :
    ∀ (s₁ s₂ acc : List Char), (∀ x ∈ s₁, (lookup? x codes).isSome) →
      encLoop codes (s₁ ++ c :: s₂) acc = .error (.unknownSymbol c) := by
  intro s₁
  induction s₁ with
  | nil => intro s₂ acc _; simp [encLoop, hc]
  | cons x rest ih =>
    intro s₂ acc hall
    obtain ⟨w, hw⟩ := Option.isSome_iff_exists.mp (hall x (List.mem_cons_self _ _))
    simp only [List.cons_append, encLoop, hw]
    exact ih s₂ (acc ++ w) (fun y hy => hall y (List.mem_cons_of_mem _ hy))

/-! ### Decoder lemmas -/

theorem decodeLoop_nil (root current : HuffmanNode) (decoded : List Char) :
    decodeLoop root [] current decoded =
      if current = root then .ok decoded else .error .incompleteCode := rfl

theorem decodeLoop_walk {root : HuffmanNode} :
    ∀ (p : List Char) (u : HuffmanNode) {s : Char} (bs acc : List Char),
      leafPath u p = some s → p ≠ [] →
      decodeLoop root (p ++ bs) u acc = decodeLoop root bs root (acc ++ [s]) := by
  intro p
  induction p with
  | nil => intro u s bs acc _ hne; exact absurd rfl hne
  | cons b p' ih =>
    intro u s bs acc hpath _
    cases u with
    | leaf s' pr => rw [leafPath_leaf_cons] at hpath; exact absurd hpath (by simp)
    | internal q l r =>
      rw [leafPath_internal_cons] at hpath
      by_cases h0 : b = '0'
      · rw [if_pos h0] at hpath
        subst h0
        cases l with
        | leaf s' pr =>
          have hs' : s' = s := by
            cases p' with
            | nil => simpa [leafPath_leaf_nil] using hpath
            | cons c cs => rw [leafPath_leaf_cons] at hpath; exact absurd hpath (by simp)
          have hp' : p' = [] := by
            cases p' with
            | nil => rfl
            | cons c cs => rw [leafPath_leaf_cons] at hpath; exact absurd hpath (by simp)
          subst hs'; subst hp'
          simp [decodeLoop]
        | internal q₂ a₂ b₂ =>
          have hne' : p' ≠ [] := leafPath_ne_nil hpath
          simp only [List.cons_append, decodeLoop, if_pos rfl]
          exact ih _ bs acc hpath hne'
      · by_cases h1 : b = '1'
        · rw [if_neg h0, if_pos h1] at hpath
          subst h1
          cases r with
          | leaf s' pr =>
            have hs' : s' = s := by
              cases p' with
              | nil => simpa [leafPath_leaf_nil] using hpath
              | cons c cs => rw [leafPath_leaf_cons] at hpath; exact absurd hpath (by simp)
            have hp' : p' = [] := by
              cases p' with
              | nil => rfl
              | cons c cs => rw [leafPath_leaf_cons] at hpath; exact absurd hpath (by simp)
            subst hs'; subst hp'
            simp [decodeLoop]
          | internal q₂ a₂ b₂ =>
            have hne' : p' ≠ [] := leafPath_ne_nil hpath
            simp only [List.cons_append, decodeLoop, if_neg h0, if_true]
            exact ih _ bs acc hpath hne'
        · rw [if_neg h0, if_neg h1] at hpath
          exact absurd hpath (by simp)

theorem decodeLoop_encJoin {t : HuffmanNode} {table : List (Char × List Char)}
    (htab : ∀ c w, lookup? c table = some w → leafPath t w = some c ∧ w ≠ []) :
    ∀ (s acc : List Char), (∀ c ∈ s, (lookup? c table).isSome) →
      decodeLoop t ((s.map fun c => (lookup? c table).getD []).flatten) t acc =
        .ok (acc ++ s) := by
  intro s
  induction s with
  | nil => intro acc _; simp [decodeLoop_nil]
  | cons c rest ih =>
    intro acc hall
    obtain ⟨w, hw⟩ := Option.isSome_iff_exists.mp (hall c (List.mem_cons_self _ _))
    obtain ⟨hpath, hne⟩ := htab c w hw
    simp only [List.map_cons, List.flatten_cons, hw, Option.getD_some]
    rw [decodeLoop_walk w t _ acc hpath hne]
    rw [ih (acc ++ [c]) (fun x hx => hall x (List.mem_cons_of_mem _ hx))]
    simp

/-! ### The decoder loop versus the raw walk -/

theorem decodeLoop_eq_walkAux {root : HuffmanNode} :
    ∀ (bits : List Char) (cur : HuffmanNode) (acc : List Char)
      (fin : HuffmanNode) (out : List Char),
      (∀ b ∈ bits, b = '0' ∨ b = '1') →
      walkAux root bits cur acc = some (fin, out) →
      decodeLoop root bits cur acc =
        if fin = root then .ok out else .error .incompleteCode := by
  intro bits
  induction bits with
  | nil =>
    intro cur acc fin out _ hwalk
    have h1 : cur = fin ∧ acc = out := by
      simpa [walkAux] using hwalk
    rw [decodeLoop_nil, h1.1, h1.2]
  | cons b rest ih =>
    intro cur acc fin out hvb hwalk
    have hb : b = '0' ∨ b = '1' := hvb b (List.mem_cons_self _ _)
    have hvr : ∀ x ∈ rest, x = '0' ∨ x = '1' := fun x hx => hvb x (List.mem_cons_of_mem _ hx)
    rcases hb with h0 | h1
    · subst h0
      cases cur with
      | leaf s pr => simp [walkAux] at hwalk
      | internal q l r =>
        cases l with
        | leaf s pr =>
          simp only [walkAux, if_pos rfl] at hwalk
          simp only [decodeLoop, if_pos rfl]
          exact ih root (acc ++ [s]) fin out hvr hwalk
        | internal q₂ a₂ b₂ =>
          simp only [walkAux, if_pos rfl] at hwalk
          simp only [decodeLoop, if_pos rfl]
          exact ih _ acc fin out hvr hwalk
    · subst h1
      have h10 : ¬ ('1' : Char) = '0' := by decide
      cases cur with
      | leaf s pr => simp [walkAux, h10] at hwalk
      | internal q l r =>
        cases r with
        | leaf s pr =>
          simp only [walkAux, if_neg h10, if_pos rfl] at hwalk
          simp only [decodeLoop, if_neg h10, if_pos rfl]
          exact ih root (acc ++ [s]) fin out hvr hwalk
        | internal q₂ a₂ b₂ =>
          simp only [walkAux, if_neg h10, if_pos rfl] at hwalk
          simp only [decodeLoop, if_neg h10, if_pos rfl]
          exact ih _ acc fin out hvr hwalk

/-! ### The instrumented builder: stability, invariants, erasure -/

theorem perm_probInsertT (a : TNode) (l : List TNode) : probInsertT a l ~ a :: l := by
  induction l with
  | nil => exact List.Perm.refl _
  | cons b t ih =>
    by_cases h : a.node.prob ≤ b.node.prob
    · simp [probInsertT, h]
    · simp only [probInsertT, if_neg h]
      exact (ih.cons b).trans (List.Perm.swap a b t)

theorem perm_sortTNodes (l : List TNode) : sortTNodes l ~ l := by
  induction l with
  | nil => exact List.Perm.refl _
  | cons a t ih => exact (perm_probInsertT a (sortTNodes t)).trans (ih.cons a)

theorem mem_probInsertT {y a : TNode} {l : List TNode} :
    y ∈ probInsertT a l ↔ y = a ∨ y ∈ l := by
  rw [(perm_probInsertT a l).mem_iff, List.mem_cons]

theorem sortedT_probInsertT (a : TNode) (l : List TNode)
    (h : l.Pairwise fun x y => x.node.prob ≤ y.node.prob) :
    (probInsertT a l).Pairwise fun x y => x.node.prob ≤ y.node.prob := by
  induction l with
  | nil => simp [probInsertT]
  | cons b t ih =>
    by_cases hab : a.node.prob ≤ b.node.prob
    · simp only [probInsertT, if_pos hab]
      refine List.Pairwise.cons ?_ h
      intro y hy
      rcases List.mem_cons.mp hy with h' | h'
      · exact h' ▸ hab
      · exact le_trans hab ((List.pairwise_cons.mp h).1 y h')
    · simp only [probInsertT, if_neg hab]
      refine List.Pairwise.cons ?_ (ih (List.pairwise_cons.mp h).2)
      intro y hy
      rcases mem_probInsertT.mp hy with h' | h'
      · exact h' ▸ le_of_lt (lt_of_not_le hab)
      · exact (List.pairwise_cons.mp h).1 y h'

theorem sortedT_sortTNodes (l : List TNode) :
    (sortTNodes l).Pairwise fun x y => x.node.prob ≤ y.node.prob := by
  induction l with
  | nil => simp [sortTNodes]
  | cons a t ih => exact sortedT_probInsertT a (sortTNodes t) ih

theorem tagOrdered_probInsertT (a : TNode) (l : List TNode)
    (hsorted : l.Pairwise fun x y => x.node.prob ≤ y.node.prob)
    (hR : l.Pairwise fun x y => x.node.prob = y.node.prob → x.tag < y.tag)
    (hall : ∀ y ∈ l, a.node.prob = y.node.prob → a.tag < y.tag) :
    (probInsertT a l).Pairwise fun x y => x.node.prob = y.node.prob → x.tag < y.tag := by
  induction l with
  | nil => simp [probInsertT]
  | cons b t ih =>
    by_cases hab : a.node.prob ≤ b.node.prob
    · simp only [probInsertT, if_pos hab]
      exact List.Pairwise.cons hall hR
    · simp only [probInsertT, if_neg hab]
      refine List.Pairwise.cons ?_ ?_
      · intro y hy
        rcases mem_probInsertT.mp hy with h' | h'
        · subst h'
          intro heq
          exact absurd (le_of_eq heq.symm) hab
        · exact (List.pairwise_cons.mp hR).1 y h'
      · exact ih (List.pairwise_cons.mp hsorted).2 (List.pairwise_cons.mp hR).2
          (fun y hy => hall y (List.mem_cons_of_mem _ hy))

theorem tagOrdered_sortTNodes {l : List TNode} (h : TagOrdered l) :
    TagOrdered (sortTNodes l) := by
  induction l with
  | nil => exact h
  | cons a t ih =>
    have h' := List.pairwise_cons.mp h
    refine tagOrdered_probInsertT a (sortTNodes t) (sortedT_sortTNodes t) (ih h'.2) ?_
    intro y hy
    exact h'.1 y ((perm_sortTNodes t).mem_iff.mp hy)

theorem sortTNodes_head_min {l : List TNode} {x : TNode} {rest : List TNode}
    (hT : TagOrdered l) (hs : sortTNodes l = x :: rest) :
    (∀ y ∈ l, x.node.prob ≤ y.node.prob) ∧
      (∀ y ∈ l, y.node.prob = x.node.prob → x.tag ≤ y.tag) := by
  have hsorted := sortedT_sortTNodes l
  have hTs := tagOrdered_sortTNodes hT
  rw [hs] at hsorted hTs
  have hmem : ∀ y ∈ l, y ∈ x :: rest := by
    intro y hy
    rw [← hs]
    exact (perm_sortTNodes l).symm.mem_iff.mp hy
  constructor
  · intro y hy
    rcases List.mem_cons.mp (hmem y hy) with h' | h'
    · exact h' ▸ le_refl _
    · exact (List.pairwise_cons.mp hsorted).1 y h'
  · intro y hy heq
    rcases List.mem_cons.mp (hmem y hy) with h' | h'
    · exact h' ▸ le_refl _
    · exact le_of_lt ((List.pairwise_cons.mp hTs).1 y h' heq.symm)

theorem tagsBelow_sortTNodes {n : ℕ} {l : List TNode} (h : tagsBelow n l) :
    tagsBelow n (sortTNodes l) :=
  fun x hx => h x ((perm_sortTNodes l).mem_iff.mp hx)

theorem stepT_invariant (next : ℕ) (items : List TNode)
    (hT : TagOrdered items) (hB : tagsBelow next items) :
    TagOrdered (stepT next items).2 ∧ tagsBelow (stepT next items).1 (stepT next items).2 := by
  have hTs : TagOrdered (sortTNodes items) := tagOrdered_sortTNodes hT
  have hBs : tagsBelow next (sortTNodes items) := tagsBelow_sortTNodes hB
  show TagOrdered (mergeFrontT next (sortTNodes items)) ∧
    tagsBelow (next + 1) (mergeFrontT next (sortTNodes items))
  cases hs : sortTNodes items with
  | nil =>
    simp only [mergeFrontT]
    exact ⟨List.Pairwise.nil, by intro x hx; simp at hx⟩
  | cons a tl =>
    cases tl with
    | nil =>
      rw [hs] at hTs hBs
      simp only [mergeFrontT]
      exact ⟨hTs, fun x hx => Nat.lt_succ_of_lt (hBs x hx)⟩
    | cons b rest =>
      rw [hs] at hTs hBs
      simp only [mergeFrontT]
      constructor
      · rw [TagOrdered, List.pairwise_append]
        refine ⟨(List.pairwise_cons.mp (List.pairwise_cons.mp hTs).2).2, ?_, ?_⟩
        · simp
        · intro x hx y hy
          have hy' : y = ⟨next, .internal (a.node.prob + b.node.prob) a.node b.node⟩ := by
            simpa using hy
          subst hy'
          intro _
          exact hBs x (List.mem_cons_of_mem _ (List.mem_cons_of_mem _ hx))
      · intro x hx
        rcases List.mem_append.mp hx with h' | h'
        · exact Nat.lt_succ_of_lt (hBs x (List.mem_cons_of_mem _ (List.mem_cons_of_mem _ h')))
        · have hx' : x = ⟨next, .internal (a.node.prob + b.node.prob) a.node b.node⟩ := by
            simpa using h'
          subst hx'
          exact Nat.lt_succ_self next

theorem map_node_probInsertT (a : TNode) (l : List TNode) :
    (probInsertT a l).map TNode.node = probInsert a.node (l.map TNode.node) := by
  induction l with
  | nil => rfl
  | cons b t ih =>
    by_cases h : a.node.prob ≤ b.node.prob
    · simp [probInsertT, probInsert, h]
    · simp [probInsertT, probInsert, h, ih]

theorem map_node_sortTNodes (l : List TNode) :
    (sortTNodes l).map TNode.node = sortNodes (l.map TNode.node) := by
  induction l with
  | nil => rfl
  | cons a t ih => simp [sortTNodes, sortNodes, map_node_probInsertT, ih]

theorem map_node_mergeFrontT (next : ℕ) (l : List TNode) :
    (mergeFrontT next l).map TNode.node = mergeFront (l.map TNode.node) := by
  match l with
  | [] => rfl
  | [x] => rfl
  | a :: b :: rest => simp [mergeFrontT, mergeFront, HuffmanNode.prob]

theorem map_node_goT (fuel : ℕ) :
    ∀ (next : ℕ) (items : List TNode),
      (goT fuel next items).map TNode.node = buildGo fuel (items.map TNode.node) := by
  induction fuel with
  | zero => intro next items; rfl
  | succ fuel ih =>
    intro next items
    by_cases h2 : 2 ≤ items.length
    · have h2' : 2 ≤ (items.map TNode.node).length := by simpa using h2
      simp only [goT, if_pos h2, buildGo, if_pos h2']
      rw [ih]
      show buildGo fuel ((mergeFrontT next (sortTNodes items)).map TNode.node) = _
      rw [map_node_mergeFrontT, map_node_sortTNodes]
    · have h2' : ¬ 2 ≤ (items.map TNode.node).length := by simpa using h2
      simp only [goT, if_neg h2, buildGo, if_neg h2']

theorem map_node_initTags (i : ℕ) (l : List HuffmanNode) :
    (initTags i l).map TNode.node = l := by
  induction l generalizing i with
  | nil => rfl
  | cons t ts ih => simp [initTags, ih]

theorem initTags_tag_bounds (l : List HuffmanNode) :
    ∀ (i : ℕ), ∀ x ∈ initTags i l, i ≤ x.tag ∧ x.tag < i + l.length := by
  induction l with
  | nil => intro i x hx; simp [initTags] at hx
  | cons t ts ih =>
    intro i x hx
    rcases List.mem_cons.mp hx with h' | h'
    · subst h'
      simp
    · have := ih (i + 1) x h'
      constructor
      · omega
      · simp only [List.length_cons]
        omega

theorem tagOrdered_initTags (l : List HuffmanNode) :
    ∀ i : ℕ, TagOrdered (initTags i l) := by
  induction l with
  | nil => intro i; exact List.Pairwise.nil
  | cons t ts ih =>
    intro i
    refine List.Pairwise.cons ?_ (ih (i + 1))
    intro y hy _
    exact lt_of_lt_of_le (Nat.lt_succ_self i) (initTags_tag_bounds ts (i + 1) y hy).1

theorem tagsBelow_initTags (l : List HuffmanNode) (i : ℕ) :
    tagsBelow (i + l.length) (initTags i l) :=
  fun x hx => (initTags_tag_bounds l i x hx).2

theorem map_node_build_tree_tagged (symbols : List Char) (probs : List ℚ) :
    (build_tree_tagged symbols probs).map TNode.node =
      buildGo symbols.length (List.zipWith HuffmanNode.leaf symbols probs) := by
  show (goT _ _ _).map TNode.node = _
  rw [map_node_goT, map_node_initTags]

/-! ### Claim C4 — weight validation in `build_huffman_tree` -/

/-- C4 (corrected): `build_huffman_tree` performs no weight validation at
all. Whenever the symbol and weight counts match it succeeds — negative
weights included, zero weights included — and the only guarded failure is
the count mismatch. -/
theorem build_accepts_matching_lengths :
    (∀ (symbols : List Char) (probs : List ℚ), symbols.length = probs.length →
      ∃ r, build_huffman_tree symbols probs = .ok r) ∧
    (∀ (symbols : List Char) (probs : List ℚ), symbols.length ≠ probs.length →
      build_huffman_tree symbols probs = .error .invalidInput) := by
  constructor
  · intro s p h
    refine ⟨(buildGo s.length (List.zipWith HuffmanNode.leaf s p)).head?, ?_⟩
    simp [build_huffman_tree, h]
  · intro s p h
    simp [build_huffman_tree, h]

/-- Witness for C4: a negative weight is accepted without any error. -/
theorem build_accepts_matching_lengths_witness :
    ∃ r, build_huffman_tree ['a'] [-1] = .ok r :=
  build_accepts_matching_lengths.1 ['a'] [-1] rfl

/-- Counterexample to C4 as stated: the input `(['a','b'], [-1, 2])` has a
negative weight, yet `build_huffman_tree` succeeds (it does not raise). -/
theorem build_negative_weight_accepted :
    build_huffman_tree ['a', 'b'] [-1, 2] =
      .ok (some (.internal 1 (.leaf 'a' (-1)) (.leaf 'b' 2))) ∧
    build_huffman_tree ['a', 'b'] [-1, 2] ≠ .error .invalidInput := by
  have h1 : build_huffman_tree ['a', 'b'] [-1, 2] =
      .ok (some (.internal 1 (.leaf 'a' (-1)) (.leaf 'b' 2))) := by
    norm_num [build_huffman_tree, buildGo, sortNodes, probInsert, mergeFront, HuffmanNode.prob]
  refine ⟨h1, ?_⟩
  rw [h1]
  simp

/-! ### Claim C5 — empty alphabet -/

/-- C5 (amended): for the empty alphabet `build_huffman_tree` does not fail;
it succeeds with no tree (`None`). The `ValueError` only arises downstream,
when the absent tree is handed to `generate_huffman_codes`. -/
theorem build_empty_returns_none :
    build_huffman_tree [] [] = .ok none ∧
    generate_huffman_codes none = .error .emptyTree :=
  ⟨rfl, rfl⟩

/-- Counterexample to C5 as stated: on the empty alphabet
`build_huffman_tree` returns successfully instead of raising. -/
theorem build_empty_no_error :
    build_huffman_tree [] [] = .ok none ∧
    build_huffman_tree [] [] ≠ .error .invalidInput :=
  ⟨rfl, fun h => Except.noConfusion h⟩

/-! ### Claim C7 — the Kraft check -/

theorem foldl_kraft (l : List (Char × List Char)) :
    ∀ a : ℚ, l.foldl (fun acc e => acc + kraftTerm e) a = a + (l.map kraftTerm).sum := by
  induction l with
  | nil => intro a; simp
  | cons e rest ih => intro a; simp [List.foldl_cons, ih, add_assoc]

/-- C7 (corrected): `check_kraft_inequality` returns the pair of the flag
and the sum `Σ 2^(-len(codeword))`, and the flag holds exactly when the sum
is `≤ 1` under the *exact* comparison — no epsilon tolerance is applied. -/
theorem kraft_check_exact (codes : List (Char × List Char)) :
    (check_kraft_inequality codes).2 = (codes.map kraftTerm).sum ∧
    ((check_kraft_inequality codes).1 = true ↔ (check_kraft_inequality codes).2 ≤ 1) := by
  have h2 : (check_kraft_inequality codes).2 = (codes.map kraftTerm).sum := by
    show codes.foldl _ 0 = _
    rw [foldl_kraft]
    simp
  refine ⟨h2, ?_⟩
  show (decide _ = true) ↔ _
  simp [check_kraft_inequality]

/-- Counterexample to C7 as stated: a table whose Kraft sum is
`1 + 2^(-30)`, which lies within the claimed `1e-9` tolerance of `1.0`, yet
the source's exact comparison reports the inequality as violated. -/
theorem kraft_no_epsilon_cex :
    (check_kraft_inequality [('a', ['0']), ('b', ['1']), ('c', List.replicate 30 '0')]).1
      = false ∧
    (check_kraft_inequality [('a', ['0']), ('b', ['1']), ('c', List.replicate 30 '0')]).2
      ≤ 1 + 1 / 1000000000 := by
  norm_num [check_kraft_inequality, kraftTerm, List.foldl]

/-! ### Claim C8 — the encoder -/

/-- C8 (corrected): on input whose characters all have table entries,
`encode_string` returns the in-order concatenation of their codewords (so
the output length is the sum of per-symbol codeword lengths, and the empty
input yields the empty bitstring, not an error); when some character is
missing it fails with the `ValueError` naming the first missing character —
the error identifies the offending symbol but not its position. -/
theorem encode_concatenation :
    (∀ (s : List Char) (codes : List (Char × List Char)),
      (∀ c ∈ s, (lookup? c codes).isSome) →
      encode_string s codes = .ok ((s.map fun c => (lookup? c codes).getD []).flatten) ∧
      ((s.map fun c => (lookup? c codes).getD []).flatten).length =
        (s.map fun c => ((lookup? c codes).getD []).length).sum) ∧
    (∀ codes : List (Char × List Char), encode_string [] codes = .ok []) ∧
    (∀ (s₁ : List Char) (c : Char) (s₂ : List Char) (codes : List (Char × List Char)),
      (∀ x ∈ s₁, (lookup? x codes).isSome) → lookup? c codes = none →
      encode_string (s₁ ++ c :: s₂) codes = .error (.unknownSymbol c)) := by
  refine ⟨?_, ?_, ?_⟩
  · intro s codes hall
    constructor
    · show encLoop codes s [] = _
      rw [encLoop_ok codes s [] hall]
      simp
    · rw [List.length_flatten, List.map_map]
      rfl
  · intro codes
    rfl
  · intro s₁ c s₂ codes hsome hc
    exact encLoop_error codes hc s₁ s₂ [] hsome

/-- Witness for C8: a fully known input is encoded to the concatenation of
its codewords. -/
theorem encode_concatenation_witness :
    encode_string ['a', 'b', 'a'] [('a', ['0']), ('b', ['1', '0'])] =
      .ok ['0', '1', '0', '0'] := by
  have h := (encode_concatenation.1 ['a', 'b', 'a'] [('a', ['0']), ('b', ['1', '0'])]
    (by decide)).1
  simpa using h

/-- Counterexample to C8 as stated: the error carries no position. The same
unknown symbol at position 0 and at position 1 produces the *same* error
value (the source message names only the symbol), so the error cannot be
identifying the offending position. -/
theorem encode_error_position_free :
    encode_string ['x', 'a'] [('a', ['0'])] = .error (.unknownSymbol 'x') ∧
    encode_string ['a', 'x'] [('a', ['0'])] = .error (.unknownSymbol 'x') ∧
    encode_string ['x', 'a'] [('a', ['0'])] = encode_string ['a', 'x'] [('a', ['0'])] :=
  ⟨rfl, rfl, rfl⟩

/-! ### Claim C10 — `calculate_average_length` and the unguarded lookup -/

theorem avgLoop_keyerror (codes : List (Char × List Char)) {c : Char}
    (hc : lookup? c codes = none) :
    ∀ (s₁ s₂ : List Char) (probs : List ℚ) (acc : ℚ),
      (s₁ ++ c :: s₂).length = probs.length →
      (∀ x ∈ s₁, (lookup? x codes).isSome) →
      avgLoop codes ((s₁ ++ c :: s₂).zip probs) acc = .error (.keyError c) := by
  intro s₁
  induction s₁ with
  | nil =>
    intro s₂ probs acc hlen _
    cases probs with
    | nil => simp at hlen
    | cons q qs => simp only [List.nil_append, List.zip_cons_cons, avgLoop, hc]
  | cons x xs ih =>
    intro s₂ probs acc hlen hsome
    cases probs with
    | nil => simp at hlen
    | cons q qs =>
      obtain ⟨w, hw⟩ := Option.isSome_iff_exists.mp (hsome x (List.mem_cons_self _ _))
      simp only [List.cons_append, List.zip_cons_cons, avgLoop, hw]
      exact ih s₂ qs _ (by simpa using hlen) (fun y hy => hsome y (List.mem_cons_of_mem _ hy))

/-- C10 (confirmed): when the symbol and probability counts match but some
symbol is missing from the code table, `calculate_average_length` fails with
the `KeyError` of the unguarded `codes[symbol]` lookup — naming the first
missing symbol — and not with the guarded count-mismatch `ValueError`. -/
theorem average_length_keyerror (codes : List (Char × List Char))
    (s₁ : List Char) (c : Char) (s₂ : List Char) (probs : List ℚ)
    (hlen : (s₁ ++ c :: s₂).length = probs.length)
    (hsome : ∀ x ∈ s₁, (lookup? x codes).isSome)
    (hc : lookup? c codes = none) :
    calculate_average_length codes (s₁ ++ c :: s₂) probs = .error (.keyError c) ∧
    calculate_average_length codes (s₁ ++ c :: s₂) probs ≠ .error .invalidInput := by
  have h1 : calculate_average_length codes (s₁ ++ c :: s₂) probs = .error (.keyError c) := by
    show (if _ then _ else _) = _
    rw [if_pos hlen]
    exact avgLoop_keyerror codes hc s₁ s₂ probs 0 hlen hsome
  refine ⟨h1, ?_⟩
  rw [h1]
  simp

/-- Witness for C10: symbols `['a','b']` with table `{'a': "0"}` raise the
`KeyError` for `'b'`. -/
theorem average_length_keyerror_witness :
    calculate_average_length [('a', ['0'])] ['a', 'b'] [1, 1] = .error (.keyError 'b') :=
  (average_length_keyerror [('a', ['0'])] ['a'] 'b' [] [1, 1] rfl (by decide) rfl).1

/-! ### What a successful build guarantees -/

theorem subtreeAt_of_leafPath {t : HuffmanNode} {p : List Char} {c : Char}
    (h : leafPath t p = some c) : ∃ q, subtreeAt t p = some (.leaf c q) := by
  unfold leafPath at h
  cases hs : subtreeAt t p with
  | none => rw [hs] at h; simp at h
  | some u =>
    cases u with
    | leaf s q =>
      rw [hs] at h
      have h' : s = c := Option.some_inj.mp h
      subst h'
      exact ⟨q, rfl⟩
    | internal q l r => rw [hs] at h; simp at h

theorem build_ok_spec (symbols : List Char) (probs : List ℚ) (t : HuffmanNode)
    (hbuild : build_huffman_tree symbols probs = .ok (some t)) :
    symbols.length = probs.length ∧
    t.leafList ~ symbols ∧
    (2 ≤ symbols.length → ∃ p a b, t = HuffmanNode.internal p a b) ∧
    (∀ s₀ : Char, symbols = [s₀] → ∃ q, t = HuffmanNode.leaf s₀ q) := by
  by_cases hlen : symbols.length = probs.length
  · simp only [build_huffman_tree, if_pos hlen, Except.ok.injEq] at hbuild
    have hinitlen : (List.zipWith HuffmanNode.leaf symbols probs).length = symbols.length := by
      simp [hlen]
    have hleaves := (forestLeaves_buildGo symbols.length
      (List.zipWith HuffmanNode.leaf symbols probs)).trans
      (List.Perm.of_eq (forestLeaves_zipWith symbols probs hlen))
    by_cases h2 : 2 ≤ symbols.length
    · obtain ⟨p, a, b, hgo⟩ := buildGo_internal symbols.length
        (List.zipWith HuffmanNode.leaf symbols probs) (by omega) (by omega)
      rw [hgo] at hbuild hleaves
      simp only [List.head?_cons, Option.some_inj] at hbuild
      subst hbuild
      refine ⟨hlen, ?_, fun _ => ⟨p, a, b, rfl⟩, ?_⟩
      · simpa [forestLeaves] using hleaves
      · intro s₀ hs₀
        rw [hs₀] at h2
        simp at h2
    · match symbols, probs, hlen with
      | [], [], _ =>
        simp [buildGo] at hbuild
      | [s₀], [q₀], _ =>
        rw [show List.zipWith HuffmanNode.leaf [s₀] [q₀] = [HuffmanNode.leaf s₀ q₀] from rfl,
          buildGo_singleton] at hbuild
        simp only [List.head?_cons, Option.some_inj] at hbuild
        subst hbuild
        refine ⟨rfl, ?_, fun hh => absurd hh h2, ?_⟩
        · exact List.Perm.refl _
        · intro s₁ hs₁
          have : s₀ = s₁ := by simpa using congrArg (fun l => l.head?) hs₁
          exact ⟨q₀, by rw [this]⟩
      | s₁ :: s₂ :: ss, q₁ :: q₂ :: qs, _ =>
        exfalso
        apply h2
        simp
  · simp [build_huffman_tree, if_neg hlen] at hbuild

/-! ### Claim C2 — the generated code is prefix-free -/

/-- C2 (confirmed): for every tree built by `build_huffman_tree` from an
alphabet of at least two symbols, no codeword of the generated table is a
prefix of the codeword of another symbol: every codeword is a root-to-leaf
path of a full binary tree, and distinct leaves have non-comparable paths. -/
theorem huffman_codes_prefix_free (symbols : List Char) (probs : List ℚ)
    (t : HuffmanNode) (table : List (Char × List Char))
    (_h2 : 2 ≤ symbols.length)
    (_hbuild : build_huffman_tree symbols probs = .ok (some t))
    (htable : generate_huffman_codes (some t) = .ok table) :
    ∀ e₁ ∈ table, ∀ e₂ ∈ table, e₁.1 ≠ e₂.1 → ¬ e₁.2 <+: e₂.2 := by
  have htab : table = genCodes t := by
    simpa [generate_huffman_codes] using htable.symm
  subst htab
  intro e₁ h₁ e₂ h₂ hne hpre
  have p₁ := genCodes_leafPath e₁ h₁
  have p₂ := genCodes_leafPath e₂ h₂
  have heq := leafPath_isPrefix_eq p₁ p₂ hpre
  rw [heq, p₂] at p₁
  exact hne (Option.some_inj.mp p₁).symm

/-- Witness for C2: for the two-symbol alphabet the codewords `"0"` and
`"1"` are not prefixes of one another. -/
theorem huffman_codes_prefix_free_witness :
    ¬ (['0'] : List Char) <+: ['1'] := by
  have hb : build_huffman_tree ['a', 'b'] [1, 1] =
      .ok (some (.internal 2 (.leaf 'a' 1) (.leaf 'b' 1))) := by
    norm_num [build_huffman_tree, buildGo, sortNodes, probInsert, mergeFront, HuffmanNode.prob]
  exact huffman_codes_prefix_free ['a', 'b'] [1, 1]
    (.internal 2 (.leaf 'a' 1) (.leaf 'b' 1)) [('a', ['0']), ('b', ['1'])]
    (by decide) hb rfl ('a', ['0']) (by decide) ('b', ['1']) (by decide) (by decide)

/-! ### Claim C9 — the decoder's terminal condition -/

/-- C9 (confirmed): for a bitstring of valid `'0'`/`'1'` characters whose
walk stays on the tree and ends at node `fin` having emitted `out`,
`decode_string` fails with the incomplete-code `ValueError` exactly when
`fin` is not the root, and otherwise returns the emitted symbols; the empty
bitstring always decodes to the empty sequence. -/
theorem decode_terminal_condition (bits : List Char) (root fin : HuffmanNode)
    (out : List Char)
    (hvalid : ∀ b ∈ bits, b = '0' ∨ b = '1')
    (hwalk : walkAll root bits = some (fin, out)) :
    (decode_string bits root =
      if fin = root then .ok out else .error .incompleteCode) ∧
    decode_string [] root = .ok [] := by
  constructor
  · exact decodeLoop_eq_walkAux bits root [] fin out hvalid hwalk
  · show decodeLoop root [] root [] = _
    rw [decodeLoop_nil, if_pos rfl]

/-- Witness for C9, on the tree of `{'a': "0", 'b': "1"}`: the bitstring
`"0"` walks to a leaf and back to the root, so it decodes to `"a"`. -/
theorem decode_terminal_condition_witness :
    decode_string ['0'] (.internal 2 (.leaf 'a' 1) (.leaf 'b' 1)) = .ok ['a'] := by
  have h := (decode_terminal_condition ['0'] (.internal 2 (.leaf 'a' 1) (.leaf 'b' 1))
    (.internal 2 (.leaf 'a' 1) (.leaf 'b' 1)) ['a'] (by decide) rfl).1
  simpa using h

/-! ### Claim C1 — the round-trip law -/

/-- C1 (amended): the round-trip law holds for every alphabet of at least
two symbols: with `tree` from `build_huffman_tree` and `table` from
`generate_huffman_codes`, every sequence composed solely of alphabet symbols
encodes to a bitstring that decodes back to the same sequence. (For a
single-symbol alphabet the law fails — see the counterexample — because the
lone codeword is the empty bitstring.) -/
theorem huffman_roundtrip (symbols : List Char) (probs : List ℚ)
    (t : HuffmanNode) (table : List (Char × List Char)) (s : List Char)
    (h2 : 2 ≤ symbols.length)
    (hbuild : build_huffman_tree symbols probs = .ok (some t))
    (htable : generate_huffman_codes (some t) = .ok table)
    (hs : ∀ c ∈ s, c ∈ symbols) :
    ∃ bits, encode_string s table = .ok bits ∧ decode_string bits t = .ok s := by
  obtain ⟨hlen, hperm, hinternal, _⟩ := build_ok_spec symbols probs t hbuild
  obtain ⟨p, a, b, ht⟩ := hinternal h2
  have htab : table = genCodes t := by
    simpa [generate_huffman_codes] using htable.symm
  subst htab
  have hallSome : ∀ c ∈ s, (lookup? c (genCodes t)).isSome := by
    intro c hc
    exact genCodes_lookup_isSome (hperm.mem_iff.mpr (hs c hc))
  have htabprop : ∀ c w, lookup? c (genCodes t) = some w → leafPath t w = some c ∧ w ≠ [] := by
    intro c w hw
    have hp := genCodes_lookup hw
    refine ⟨hp, ?_⟩
    rw [ht] at hp
    exact leafPath_ne_nil hp
  refine ⟨(s.map fun c => (lookup? c (genCodes t)).getD []).flatten, ?_, ?_⟩
  · show encLoop (genCodes t) s [] = _
    rw [encLoop_ok _ s [] hallSome]
    simp
  · show decodeLoop t _ t [] = _
    rw [decodeLoop_encJoin htabprop s [] hallSome]
    simp

/-- Witness for C1: the alphabet `['a','b']` round-trips `"aba"`. -/
theorem huffman_roundtrip_witness :
    ∃ bits, encode_string ['a', 'b', 'a'] [('a', ['0']), ('b', ['1'])] = .ok bits ∧
      decode_string bits (.internal 2 (.leaf 'a' 1) (.leaf 'b' 1)) = .ok ['a', 'b', 'a'] := by
  have hb : build_huffman_tree ['a', 'b'] [1, 1] =
      .ok (some (.internal 2 (.leaf 'a' 1) (.leaf 'b' 1))) := by
    norm_num [build_huffman_tree, buildGo, sortNodes, probInsert, mergeFront, HuffmanNode.prob]
  exact huffman_roundtrip ['a', 'b'] [1, 1] (.internal 2 (.leaf 'a' 1) (.leaf 'b' 1))
    [('a', ['0']), ('b', ['1'])] ['a', 'b', 'a'] (by decide) hb rfl (by decide)

/-- Counterexample to C1 as stated (for *every* alphabet): for the
single-symbol alphabet `['a']` the codeword is empty, so `"a"` encodes to
the empty bitstring, which decodes to the empty sequence — not `"a"`. -/
theorem roundtrip_fails_single_symbol :
    build_huffman_tree ['a'] [1] = .ok (some (.leaf 'a' 1)) ∧
    generate_huffman_codes (some (.leaf 'a' 1)) = .ok [('a', [])] ∧
    encode_string ['a'] [('a', [])] = .ok [] ∧
    decode_string [] (.leaf 'a' 1) = .ok [] ∧
    ([] : List Char) ≠ ['a'] :=
  ⟨rfl, rfl, rfl, rfl, by simp⟩

/-! ### Claim C6 — shape of the generated table -/

/-- C6 (amended): for a duplicate-free alphabet the generated table has
exactly one entry per input symbol with unique keys, every codeword is a
finite sequence of binary digits, and codewords are non-empty whenever the
alphabet has at least two symbols; for a single-symbol alphabet the table
maps the lone symbol to the *empty* codeword (so non-emptiness fails
there — see the counterexample). -/
theorem generate_table_shape (symbols : List Char) (probs : List ℚ)
    (t : HuffmanNode) (table : List (Char × List Char))
    (hnodup : symbols.Nodup)
    (hbuild : build_huffman_tree symbols probs = .ok (some t))
    (htable : generate_huffman_codes (some t) = .ok table) :
    table.map Prod.fst ~ symbols ∧
    (table.map Prod.fst).Nodup ∧
    (∀ e ∈ table, ∀ ch ∈ e.2, ch = '0' ∨ ch = '1') ∧
    (2 ≤ symbols.length → ∀ e ∈ table, e.2 ≠ []) ∧
    (∀ s₀ : Char, symbols = [s₀] → table = [(s₀, [])]) := by
  obtain ⟨hlen, hperm, hinternal, hleaf⟩ := build_ok_spec symbols probs t hbuild
  have htab : table = genCodes t := by
    simpa [generate_huffman_codes] using htable.symm
  subst htab
  have hnodupLeaf : t.leafList.Nodup := hperm.nodup_iff.mpr hnodup
  have hkeys : (genCodes t).map Prod.fst = t.leafList := by
    rw [genCodes_eq_pathList hnodupLeaf, pathList_map_fst]
  refine ⟨?_, ?_, ?_, ?_, ?_⟩
  · rw [hkeys]; exact hperm
  · rw [hkeys]; exact hnodupLeaf
  · intro e he ch hch
    obtain ⟨q, hsub⟩ := subtreeAt_of_leafPath (genCodes_leafPath e he)
    exact bits_of_subtreeAt hsub ch hch
  · intro h2 e he
    obtain ⟨p, a, b, ht⟩ := hinternal h2
    have hp := genCodes_leafPath e he
    rw [ht] at hp
    exact leafPath_ne_nil hp
  · intro s₀ hs₀
    obtain ⟨q, ht⟩ := hleaf s₀ hs₀
    rw [ht]
    rfl

/-- Witness for C6, on the alphabet `['a','b']`: keys `['a','b']`, binary
non-empty codewords. -/
theorem generate_table_shape_witness :
    ([('a', ['0']), ('b', ['1'])].map (Prod.fst (α := Char) (β := List Char))) ~ ['a', 'b'] := by
  have hb : build_huffman_tree ['a', 'b'] [1, 1] =
      .ok (some (.internal 2 (.leaf 'a' 1) (.leaf 'b' 1))) := by
    norm_num [build_huffman_tree, buildGo, sortNodes, probInsert, mergeFront, HuffmanNode.prob]
  exact (generate_table_shape ['a', 'b'] [1, 1] (.internal 2 (.leaf 'a' 1) (.leaf 'b' 1))
    [('a', ['0']), ('b', ['1'])] (by decide) hb rfl).1

/-- Counterexample to C6 as stated: for the single-symbol alphabet the
returned table maps `'a'` to the empty codeword — not to a non-empty
sequence of binary digits as the claim asserts for every input symbol. -/
theorem single_symbol_empty_codeword :
    build_huffman_tree ['a'] [1] = .ok (some (.leaf 'a' 1)) ∧
    generate_huffman_codes (some (.leaf 'a' 1)) = .ok [('a', [])] ∧
    lookup? 'a' [(('a' : Char), ([] : List Char))] = some [] :=
  ⟨rfl, rfl, rfl⟩

/-! ### Claim C3 — deterministic, insertion-ordered tie-break -/

/-- C3 (confirmed): the merge loop of `build_huffman_tree` breaks weight
ties deterministically in insertion order. Instrumenting each working node
with its insertion tag (initial leaves tagged by alphabet position, merged
nodes by creation order): (1) the instrumented builder erases to the plain
one, whose result is by construction a deterministic function of
`(symbols, probs)`; (2) the initial working list is tag-ordered on equal
weights, with all tags below the next fresh tag; (3) one merge step
preserves both invariants (the sort is stable and the merged node receives
the largest tag so far), so every reachable working list is tag-ordered;
(4) in a tag-ordered working list the first node extracted is, among the
nodes of minimum weight, the one with the least (earliest) tag, and the
second extracted node is likewise least-tagged among the minima of the
remaining collection. -/
theorem build_tiebreak_spec :
    (∀ (symbols : List Char) (probs : List ℚ),
      (build_tree_tagged symbols probs).map TNode.node =
        buildGo symbols.length (List.zipWith HuffmanNode.leaf symbols probs)) ∧
    (∀ (symbols : List Char) (probs : List ℚ),
      TagOrdered (initTags 0 (List.zipWith HuffmanNode.leaf symbols probs)) ∧
      tagsBelow (List.zipWith HuffmanNode.leaf symbols probs).length
        (initTags 0 (List.zipWith HuffmanNode.leaf symbols probs))) ∧
    (∀ (next : ℕ) (items : List TNode), TagOrdered items → tagsBelow next items →
      TagOrdered (stepT next items).2 ∧
      tagsBelow (stepT next items).1 (stepT next items).2) ∧
    (∀ (items : List TNode) (l r : TNode) (rest : List TNode), TagOrdered items →
      sortTNodes items = l :: r :: rest →
      ((∀ y ∈ items, l.node.prob ≤ y.node.prob) ∧
        (∀ y ∈ items, y.node.prob = l.node.prob → l.tag ≤ y.tag)) ∧
      ((∀ y ∈ r :: rest, r.node.prob ≤ y.node.prob) ∧
        (∀ y ∈ r :: rest, y.node.prob = r.node.prob → r.tag ≤ y.tag)) ∧
      items ~ l :: r :: rest) := by
  refine ⟨?_, ?_, ?_, ?_⟩
  · intro symbols probs
    exact map_node_build_tree_tagged symbols probs
  · intro symbols probs
    refine ⟨tagOrdered_initTags _ 0, ?_⟩
    simpa using tagsBelow_initTags (List.zipWith HuffmanNode.leaf symbols probs) 0
  · intro next items hT hB
    exact stepT_invariant next items hT hB
  · intro items l r rest hT hs
    have hsorted := sortedT_sortTNodes items
    have hTs := tagOrdered_sortTNodes hT
    rw [hs] at hsorted hTs
    refine ⟨sortTNodes_head_min hT hs, ⟨?_, ?_⟩, ?_⟩
    · intro y hy
      rcases List.mem_cons.mp hy with h' | h'
      · exact h' ▸ le_refl _
      · exact (List.pairwise_cons.mp (List.pairwise_cons.mp hsorted).2).1 y h'
    · intro y hy heq
      rcases List.mem_cons.mp hy with h' | h'
      · exact h' ▸ le_refl _
      · exact le_of_lt ((List.pairwise_cons.mp (List.pairwise_cons.mp hTs).2).1 y h' heq.symm)
    · exact hs ▸ (perm_sortTNodes items).symm

/-- Witness for C3: a two-node working list with equal weights is
tag-ordered, and the earlier-inserted node (tag 0) is extracted first. -/
theorem build_tiebreak_spec_witness :
    TagOrdered [⟨0, .leaf 'a' 1⟩, ⟨1, .leaf 'b' 1⟩] ∧
    (⟨0, .leaf 'a' 1⟩ : TNode).tag ≤ (⟨1, .leaf 'b' 1⟩ : TNode).tag := by
  have hT : TagOrdered [⟨0, .leaf 'a' 1⟩, ⟨1, .leaf 'b' 1⟩] := by decide
  refine ⟨hT, ?_⟩
  have h := (build_tiebreak_spec.2.2.2 [⟨0, .leaf 'a' 1⟩, ⟨1, .leaf 'b' 1⟩]
    ⟨0, .leaf 'a' 1⟩ ⟨1, .leaf 'b' 1⟩ [] hT rfl).1.2
  exact h ⟨1, .leaf 'b' 1⟩ (by decide) rfl

end Huffman
